import Mathlib

/-!
Verification development for the `alphabill-sso-login` module
(`src/web3auth.js`): a thin adapter holding two pieces of module state
(an auth-client handle `web3auth` and a recovered `secret`) and deriving
BIP39/BIP32 key material from the recovered entropy.

The module's own logic (state checks, error throws, call chaining, the
HD path string) is embedded directly from the source.  The external
cryptographic collaborators are handled as follows:

* BIP39 `entropyToMnemonic` / `mnemonicToEntropy` (the `bip39` library)
  are embedded at the level of word indices — the spec declares the
  2048-word list a non-goal, and the index↔word table lookup is a
  bijection — including the real SHA-256 checksum.
* BIP32 `HDKey.derive` path parsing (the `@scure/bip32` library) is
  embedded faithfully (split on `/`, digit/hardened component regex,
  index bound 2^31); the secp256k1 child-key arithmetic is represented
  symbolically by the free constructors of `HDK`.
* PBKDF2 seed stretching (`mnemonicToSeedSync`) is represented
  symbolically by `Seed.ofMnemonic`.
-/

namespace Web3Auth

/-! ## Bit-level utilities (binary strings of the bip39 reference code) -/

/-- Big-endian bits of `x`, zero-padded/truncated to width `w`
(models `lpad(x.toString(2), "0", w)` for `x < 2^w`). -/
def natToBits : Nat → Nat → List Bool
  | 0, _ => []
  | w + 1, x => natToBits w (x / 2) ++ [x % 2 == 1]

/-- Value of a big-endian bit string (models `parseInt(bin, 2)`). -/
def bitsToNat (l : List Bool) : Nat :=
  l.foldl (fun a b => 2 * a + (if b then 1 else 0)) 0

/-- Worker for `chunksOf`: structural recursion on a fuel bound of the
list length (each step consumes at least one element). -/
def chunksOfGo (n : Nat) : Nat → List α → List (List α)
  | _, [] => []
  | 0, l => [l]
  | fuel + 1, c :: cs => (c :: cs.take (n - 1)) :: chunksOfGo n fuel (cs.drop (n - 1))

/-- Greedy chunks of `n` elements, the last possibly shorter
(models the regex `.{1,n}` global match used by bip39). -/
def chunksOf (n : Nat) (l : List α) : List (List α) := chunksOfGo n l.length l

theorem chunksOfGo_nil (n fuel : Nat) : chunksOfGo n fuel ([] : List α) = [] := by
  cases fuel <;> rfl

theorem chunksOfGo_congr (n : Nat) : ∀ fuel1 fuel2 (l : List α),
    l.length ≤ fuel1 → l.length ≤ fuel2 → chunksOfGo n fuel1 l = chunksOfGo n fuel2 l := by
  intro fuel1
  induction fuel1 with
  | zero =>
      intro fuel2 l h1 _
      have : l = [] := List.eq_nil_of_length_eq_zero (by omega)
      subst this; simp [chunksOfGo_nil]
  | succ f ih =>
      intro fuel2 l h1 h2
      cases l with
      | nil => simp [chunksOfGo_nil]
      | cons c cs =>
          cases fuel2 with
          | zero => simp at h2
          | succ f2 =>
              simp only [chunksOfGo, List.cons.injEq, true_and]
              refine ih f2 (cs.drop (n - 1)) ?_ ?_ <;> simp at h1 h2 ⊢ <;> omega

@[simp] theorem chunksOf_nil (n : Nat) : chunksOf n ([] : List α) = [] := rfl

theorem chunksOf_cons (n : Nat) (c : α) (cs : List α) :
    chunksOf n (c :: cs) = (c :: cs.take (n - 1)) :: chunksOf n (cs.drop (n - 1)) := by
  show chunksOfGo n (cs.length + 1) (c :: cs) = _
  rw [chunksOfGo]
  congr 1
  exact chunksOfGo_congr n cs.length (cs.drop (n - 1)).length _ (by simp) le_rfl

@[simp] theorem length_natToBits (w x : Nat) : (natToBits w x).length = w := by
  induction w generalizing x with
  | zero => rfl
  | succ w ih => simp [natToBits, ih]

theorem bitsToNat_append_bit (l : List Bool) (b : Bool) :
    bitsToNat (l ++ [b]) = 2 * bitsToNat l + (if b then 1 else 0) := by
  simp [bitsToNat, List.foldl_append]

theorem bitsToNat_lt (l : List Bool) : bitsToNat l < 2 ^ l.length := by
  induction l using List.reverseRecOn with
  | nil => simp [bitsToNat]
  | append_singleton l b ih =>
      rw [bitsToNat_append_bit]
      simp only [List.length_append, List.length_singleton, pow_succ]
      cases b <;> simp <;> omega

theorem natToBits_bitsToNat (l : List Bool) : natToBits l.length (bitsToNat l) = l := by
  induction l using List.reverseRecOn with
  | nil => rfl
  | append_singleton l b ih =>
      rw [bitsToNat_append_bit]
      simp only [List.length_append, List.length_singleton]
      have h2 : (2 * bitsToNat l + (if b then 1 else 0)) / 2 = bitsToNat l := by
        cases b <;> simp <;> omega
      have h3 : (2 * bitsToNat l + (if b then 1 else 0)) % 2 = (if b then 1 else 0) := by
        cases b <;> simp [Nat.add_mul_mod_self_left] <;> omega
      rw [natToBits, h2, h3, ih]
      cases b <;> simp

theorem bitsToNat_natToBits (w x : Nat) (hx : x < 2 ^ w) :
    bitsToNat (natToBits w x) = x := by
  induction w generalizing x with
  | zero => simp [pow_zero] at hx; simp [natToBits, bitsToNat, hx]
  | succ w ih =>
      have hdiv : x / 2 < 2 ^ w := by
        rw [Nat.div_lt_iff_lt_mul (by omega)]
        calc x < 2 ^ (w + 1) := hx
        _ = 2 ^ w * 2 := by rw [pow_succ]
      rw [natToBits, bitsToNat_append_bit, ih _ hdiv]
      have := Nat.div_add_mod x 2
      have hm : x % 2 < 2 := Nat.mod_lt _ (by omega)
      have hm2 : x % 2 = 0 ∨ x % 2 = 1 := by omega
      rcases hm2 with h | h <;> simp [h] <;> omega

theorem flatten_chunksOf (n : Nat) (l : List α) : (chunksOf n l).flatten = l := by
  suffices h : ∀ m (l : List α), l.length ≤ m → (chunksOf n l).flatten = l from
    h l.length l le_rfl
  intro m
  induction m with
  | zero =>
      intro l hl
      have : l = [] := List.eq_nil_of_length_eq_zero (by omega)
      subst this; simp
  | succ m ih =>
      intro l hl
      cases l with
      | nil => simp
      | cons c cs =>
          rw [chunksOf_cons, List.flatten_cons, ih (cs.drop (n - 1)) (by simp at hl ⊢; omega)]
          simp [List.take_append_drop]

theorem length_mem_chunksOf (n : Nat) (hn : 1 ≤ n) (l : List α)
    (hdvd : n ∣ l.length) : ∀ c ∈ chunksOf n l, c.length = n := by
  suffices h : ∀ m (l : List α), l.length ≤ m → n ∣ l.length →
      ∀ c ∈ chunksOf n l, c.length = n from h l.length l le_rfl hdvd
  intro m
  induction m with
  | zero =>
      intro l hl _
      have : l = [] := List.eq_nil_of_length_eq_zero (by omega)
      subst this; simp
  | succ m ih =>
      intro l hl hd
      cases l with
      | nil => simp
      | cons x xs =>
          rw [chunksOf_cons]
          intro c hc
          have hlen : n ≤ xs.length + 1 := by
            refine Nat.le_of_dvd (by omega) ?_
            simpa using hd
          have hdrop : n ∣ (xs.drop (n - 1)).length := by
            simp only [List.length_drop]
            rcases hd with ⟨k, hk⟩
            simp only [List.length_cons] at hk
            refine ⟨k - 1, ?_⟩
            cases k with
            | zero => omega
            | succ k => simp [Nat.mul_succ] at hk ⊢; omega
          rcases List.mem_cons.mp hc with hc | hc
          · subst hc; simp; omega
          · exact ih (xs.drop (n - 1)) (by simp at hl ⊢; omega) hdrop c hc

theorem chunksOf_join_of_length (n : Nat) (hn : 1 ≤ n) (L : List (List α))
    (h : ∀ c ∈ L, c.length = n) : chunksOf n L.flatten = L := by
  induction L with
  | nil => simp
  | cons c rest ih =>
      have hc : c.length = n := h c (by simp)
      cases c with
      | nil => simp at hc; omega
      | cons x xs =>
          simp only [List.flatten_cons, List.cons_append]
          rw [chunksOf_cons]
          have hxs : xs.length = n - 1 := by simp at hc; omega
          have ht : (xs ++ rest.flatten).take (n - 1) = xs := by
            rw [← hxs, List.take_left]
          have hd : (xs ++ rest.flatten).drop (n - 1) = rest.flatten := by
            rw [← hxs, List.drop_left]
          rw [ht, hd, ih (fun c hc => h c (by simp [hc]))]

/-! ## SHA-256 (the `create-hash` dependency of bip39, used for the
mnemonic checksum; standard FIPS 180-4 compression over byte lists) -/

/-- 2^32, the word modulus of SHA-256 arithmetic. -/
def M32 : Nat := 4294967296

def rotr (n x : Nat) : Nat := ((x >>> n) ||| (x <<< (32 - n))) % M32

def smallSigma0 (x : Nat) : Nat := rotr 7 x ^^^ rotr 18 x ^^^ (x >>> 3)

def smallSigma1 (x : Nat) : Nat := rotr 17 x ^^^ rotr 19 x ^^^ (x >>> 10)

def bigSigma0 (x : Nat) : Nat := rotr 2 x ^^^ rotr 13 x ^^^ rotr 22 x

def bigSigma1 (x : Nat) : Nat := rotr 6 x ^^^ rotr 11 x ^^^ rotr 25 x

def chFn (x y z : Nat) : Nat := (x &&& y) ^^^ ((x ^^^ 4294967295) &&& z)

def majFn (x y z : Nat) : Nat := (x &&& y) ^^^ (x &&& z) ^^^ (y &&& z)

/-- The eight 32-bit working variables of the SHA-256 compression loop. -/
abbrev Hash8 := Nat × Nat × Nat × Nat × Nat × Nat × Nat × Nat

def roundConstants : List Nat :=
  [1116352408, 1899447441, 3049323471, 3921009573, 961987163,
   1508970993, 2453635748, 2870763221, 3624381080, 310598401,
   607225278, 1426881987, 1925078388, 2162078206, 2614888103,
   3248222580, 3835390401, 4022224774, 264347078, 604807628,
   770255983, 1249150122, 1555081692, 1996064986, 2554220882,
   2821834349, 2952996808, 3210313671, 3336571891, 3584528711,
   113926993, 338241895, 666307205, 773529912, 1294757372,
   1396182291, 1695183700, 1986661051, 2177026350, 2456956037,
   2730485921, 2820302411, 3259730800, 3345764771, 3516065817,
   3600352804, 4094571909, 275423344, 430227734, 506948616,
   659060556, 883997877, 958139571, 1322822218, 1537002063,
   1747873779, 1955562222, 2024104815, 2227730452, 2361852424,
   2428436474, 2756734187, 3204031479, 3329325298]

def initHash : Hash8 :=
  (1779033703, 3144134277, 1013904242, 2773480762,
   1359893119, 2600822924, 528734635, 1541459225)

/-- Big-endian 32-bit word from 4 bytes. -/
def bytesToWordBE (l : List Nat) : Nat := l.foldl (fun a b => 256 * a + b) 0

/-- 4 big-endian bytes of a 32-bit word. -/
def wordToBytesBE (x : Nat) : List Nat :=
  [x / 16777216 % 256, x / 65536 % 256, x / 256 % 256, x % 256]

/-- FIPS 180-4 padding: append `0x80`, zero fill to 56 mod 64,
then the 64-bit big-endian bit length. -/
def padMessage (msg : List Nat) : List Nat :=
  msg ++ 128 :: List.replicate ((119 - msg.length % 64) % 64) 0
      ++ (List.range 8).map (fun i => msg.length * 8 / 2 ^ (8 * (7 - i)) % 256)

/-- Extend the 16-word block schedule by `fuel` further words. -/
def extendSchedule (ws : List Nat) : Nat → List Nat
  | 0 => ws
  | fuel + 1 =>
      let t := (smallSigma1 (ws.getD (ws.length - 2) 0) + ws.getD (ws.length - 7) 0 +
                smallSigma0 (ws.getD (ws.length - 15) 0) + ws.getD (ws.length - 16) 0) % M32
      extendSchedule (ws ++ [t]) fuel

/-- One round of the SHA-256 compression loop. -/
def roundFn (w : List Nat) (st : Hash8) (i : Nat) : Hash8 :=
  match st with
  | (a, b, c, d, e, f, g, h) =>
      let t1 := (h + bigSigma1 e + chFn e f g + roundConstants.getD i 0 + w.getD i 0) % M32
      let t2 := (bigSigma0 a + majFn a b c) % M32
      ((t1 + t2) % M32, a, b, c, (d + t1) % M32, e, f, g)

/-- Compress one 64-byte block into the running hash state. -/
def compressBlock (st : Hash8) (block : List Nat) : Hash8 :=
  let w := extendSchedule ((chunksOf 4 block).map bytesToWordBE) 48
  match st, (List.range 64).foldl (roundFn w) st with
  | (a, b, c, d, e, f, g, h), (a2, b2, c2, d2, e2, f2, g2, h2) =>
      ((a + a2) % M32, (b + b2) % M32, (c + c2) % M32, (d + d2) % M32,
       (e + e2) % M32, (f + f2) % M32, (g + g2) % M32, (h + h2) % M32)

/-- Serialize the final hash state as 32 big-endian bytes. -/
def digestBytes (st : Hash8) : List Nat :=
  match st with
  | (a, b, c, d, e, f, g, h) =>
      wordToBytesBE a ++ wordToBytesBE b ++ wordToBytesBE c ++ wordToBytesBE d ++
      wordToBytesBE e ++ wordToBytesBE f ++ wordToBytesBE g ++ wordToBytesBE h

/-- SHA-256 of a byte list, as 32 bytes. -/
def sha256 (msg : List Nat) : List Nat :=
  digestBytes ((chunksOf 64 (padMessage msg)).foldl compressBlock initHash)

@[simp] theorem length_digestBytes (st : Hash8) : (digestBytes st).length = 32 := by
  obtain ⟨a, b, c, d, e, f, g, h⟩ := st
  simp [digestBytes, wordToBytesBE]

@[simp] theorem length_sha256 (msg : List Nat) : (sha256 msg).length = 32 := by
  simp [sha256]

/-! ## Error taxonomy

The source throws plain `Error` objects with distinguishing messages;
the spec names them as an error taxonomy.  Constructor ↔ throw site:

* `notInitialized` ↔ `"Web3auth was not initialized. Initialize web3auth first."`
  (`recoverSecret`, `getEntropy`, `forgetSecret`);
* `secretNotRecovered` ↔ `"Something is wrong: the entropy was not recovered."`
  (`getEntropy`);
* `invalidAccountIndex` ↔ the invalid-index / invalid-path-component
  rejections of `HDKey.derive` in `@scure/bip32`;
* `invalidEntropy`, `invalidMnemonic`, `invalidChecksum` ↔ the
  `bip39` library's validation throws;
* `providerFailure` ↔ an opaque error surfaced by the external
  identity provider (propagated unwrapped). -/
inductive W3AError where
  | notInitialized
  | secretNotRecovered
  | invalidAccountIndex
  | invalidEntropy
  | invalidMnemonic
  | invalidChecksum
  | providerFailure (code : Nat)
deriving DecidableEq, Repr

/-! ## BIP39 mnemonic encoding (the `bip39` library used by `getMnemonic`)

Mnemonics are embedded as their lists of 11-bit word indices: the spec
declares reimplementing the 2048-word list a non-goal, and the
index → word table lookup (and its `indexOf` inverse) is a bijection on
the 2048 distinct words, so nothing below depends on the words
themselves.  The `(· < 2048)` guard in `mnemonicToEntropy` models the
`wordlist.indexOf(word) === -1` membership check. -/

/-- `bytesToBinary` of bip39: each byte as 8 big-endian bits. -/
def bytesToBits (e : List Nat) : List Bool := (e.map (natToBits 8)).flatten

/-- `deriveChecksumBits` of bip39: the first `ENT / 32` bits of
`sha256(entropy)`. -/
def deriveChecksumBits (ent : List Nat) : List Bool :=
  (bytesToBits (sha256 ent)).take (ent.length * 8 / 32)

/-- The word-index sequence of the mnemonic for `ent`: entropy bits plus
checksum bits, cut into 11-bit chunks, each read as a word index. -/
def entropyToMnemonicIdx (ent : List Nat) : List Nat :=
  (chunksOf 11 (bytesToBits ent ++ deriveChecksumBits ent)).map bitsToNat

/-- bip39 `entropyToMnemonic`: validates the entropy length
(16–32 bytes, multiple of 4), then encodes. -/
def entropyToMnemonic (ent : List Nat) : Except W3AError (List Nat) :=
  if ent.length < 16 ∨ ent.length > 32 ∨ ent.length % 4 ≠ 0 then .error .invalidEntropy
  else .ok (entropyToMnemonicIdx ent)

/-- bip39 `mnemonicToEntropy`, the inverse decoder: word indices back to
11-bit chunks, split at `floor(bits/33) * 32`, rebuild the entropy
bytes, and verify length and checksum. -/
def mnemonicToEntropy (words : List Nat) : Except W3AError (List Nat) :=
  if words.length % 3 ≠ 0 then .error .invalidMnemonic
  else if ¬ words.all (· < 2048) then .error .invalidMnemonic
  else
    let bits := (words.map (natToBits 11)).flatten
    let dividerIndex := bits.length / 33 * 32
    let entropyBits := bits.take dividerIndex
    let checksumBits := bits.drop dividerIndex
    let entropyBytes := (chunksOf 8 entropyBits).map bitsToNat
    if entropyBytes.length < 16 ∨ entropyBytes.length > 32 ∨ entropyBytes.length % 4 ≠ 0 then
      .error .invalidEntropy
    else if deriveChecksumBits entropyBytes ≠ checksumBits then .error .invalidChecksum
    else .ok entropyBytes

/-! ## Decimal formatting (the template literal interpolation of
`accountIndex` into the HD path string) -/

/-- Decimal digits of `n`, most significant first (JS number → string
conversion for non-negative integers). -/
def natDigitsChars (n : Nat) : List Char :=
  if n < 10 then [Char.ofNat (48 + n)]
  else natDigitsChars (n / 10) ++ [Char.ofNat (48 + n % 10)]
termination_by n
decreasing_by exact Nat.div_lt_self (by omega) (by omega)

/-- JS number → string conversion for integers (as interpolated by the
template literal in `getPrivateKey`). -/
def intToDecString (i : Int) : String :=
  if i < 0 then String.mk (Char.ofNat 45 :: natDigitsChars i.natAbs)
  else String.mk (natDigitsChars i.toNat)

/-- Value of a decimal digit string (the `+m[1]` numeric conversion in
the bip32 path parser). -/
def parseDigits (l : List Char) : Nat :=
  l.foldl (fun a c => 10 * a + (c.toNat - 48)) 0

/-! ## Hex decoding (`Buffer.from(entropy, "hex")` inside bip39's
`entropyToMnemonic`, applied to the provider's hex-string secret) -/

def hexVal (c : Char) : Option Nat :=
  if 48 ≤ c.toNat ∧ c.toNat ≤ 57 then some (c.toNat - 48)
  else if 97 ≤ c.toNat ∧ c.toNat ≤ 102 then some (c.toNat - 87)
  else if 65 ≤ c.toNat ∧ c.toNat ≤ 70 then some (c.toNat - 55)
  else none

/-- Hex string to bytes; like `Buffer.from(·, "hex")` it stops at the
first non-hex pair and drops a trailing odd nibble. -/
def hexToBytes : List Char → List Nat
  | c1 :: c2 :: rest =>
      match hexVal c1, hexVal c2 with
      | some hi, some lo => (16 * hi + lo) :: hexToBytes rest
      | _, _ => []
  | _ => []

/-! ## BIP32 hierarchical keys (`@scure/bip32`)

The HMAC-SHA512 / secp256k1 arithmetic of `fromMasterSeed` and
`deriveChild` is external cryptography; it is represented symbolically
by the free constructors of `Seed` and `HDK`, which record exactly the
inputs the library feeds it (the mnemonic for PBKDF2 stretching, the
seed and the child-index trace for the key tree).  The path *parsing*
of `HDKey.derive` is embedded faithfully below. -/

/-- Symbolic 64-byte seed: `mnemonicToSeedSync(mnemonic)` (PBKDF2 with
empty passphrase). -/
inductive Seed where
  | ofMnemonic (words : List Nat)
deriving DecidableEq, Repr

/-- `mnemonicToSeedSync` of bip39 (PBKDF2-class stretching, symbolic). -/
def mnemonicToSeedSync (words : List Nat) : Seed := Seed.ofMnemonic words

/-- Symbolic extended key: the root from a seed, or a child of a parent
key at a (possibly hardened-offset) index. -/
inductive HDK where
  | fromSeed (seed : Seed)
  | child (parent : HDK) (index : Nat)
deriving DecidableEq, Repr

/-- `HDKey.fromMasterSeed` of `@scure/bip32` (HMAC-based root
derivation, symbolic). -/
def fromMasterSeed (s : Seed) : HDK := HDK.fromSeed s

/-- The `privateKey` / `publicKey` byte buffers of a derived key,
symbolic observations of the underlying extended key. -/
inductive KeyBytes where
  | privateKey (key : HDK)
  | publicKey (key : HDK)
deriving DecidableEq, Repr

/-- `HARDENED_OFFSET = 0x80000000` of `@scure/bip32`. -/
def hardenedOffset : Nat := 2147483648

/-- The apostrophe marking a hardened path segment. -/
def apos : Char := Char.ofNat 39

/-- `String.split("/")` on a character list. -/
def splitOnChar (sep : Char) : List Char → List (List Char)
  | [] => [[]]
  | c :: rest =>
      if c = sep then [] :: splitOnChar sep rest
      else
        match splitOnChar sep rest with
        | [] => [[c]]
        | h :: t => (c :: h) :: t

/-- Strip an optional trailing hardened marker (the `('?)` group of the
component regex `^(\d+)('?)$`). -/
def splitHardened (s : List Char) : List Char × Bool :=
  match s.reverse with
  | c :: rest => if c = apos then (rest.reverse, true) else (s, false)
  | [] => (s, false)

/-- Parse one path component against `^(\d+)('?)$`: digit string plus
optional hardened marker. -/
def parseComponent (s : List Char) : Option (Nat × Bool) :=
  let p := splitHardened s
  if p.1 ≠ [] ∧ p.1.all Char.isDigit then some (parseDigits p.1, p.2) else none

/-- The derivation loop of `HDKey.derive`: parse each component, reject
indices `≥ 2^31`, add the hardened offset, and descend. -/
def deriveComponents (k : HDK) : List (List Char) → Except W3AError HDK
  | [] => .ok k
  | c :: rest =>
      match parseComponent c with
      | none => .error .invalidAccountIndex
      | some (idx, hardened) =>
          if hardenedOffset ≤ idx then .error .invalidAccountIndex
          else deriveComponents (HDK.child k (if hardened then idx + hardenedOffset else idx)) rest

/-- `HDKey.derive(path)` of `@scure/bip32`: the path must start with an
`m` / `M` component, then each `/`-separated component is parsed and
derived in turn. -/
def derive (k : HDK) (path : String) : Except W3AError HDK :=
  match splitOnChar (Char.ofNat 47) path.data with
  | m :: rest =>
      if m = [Char.ofNat 109] ∨ m = [Char.ofNat 77] ∨
         m = [Char.ofNat 109, apos] ∨ m = [Char.ofNat 77, apos] then
        deriveComponents k rest
      else .error .invalidAccountIndex
  | [] => .error .invalidAccountIndex

/-! ## The module itself (`src/web3auth.js`)

Module state is the pair of `let` bindings `web3auth` (opaque client
handle, `null` when uninitialized) and `secret` (the recovered entropy
hex string, `null` when absent).  The suspending provider interactions
(`web3auth.connect()`, `provider.request({method: "private_key"})`,
`web3auth.logout()`) are passed in as explicit oracle outcomes, so a
state-changing call is a function
`state → oracle outcomes → result × state`. -/

structure ModuleState where
  web3auth : Option Nat
  secret : Option String
deriving DecidableEq, Repr

/-- `init`: constructs and stores a fresh client handle; the stored
secret is not touched. -/
def init (st : ModuleState) (api_key : Nat) : ModuleState :=
  { st with web3auth := some api_key }

/-- `recoverSecret`: fails if `web3auth` is `null`; otherwise awaits
`connect()`, then `provider.request({method: "private_key"})`, stores
the result in `secret` and returns `true`.  A rejection of either
await propagates and skips the assignment. -/
def recoverSecret (st : ModuleState) (connectResult : Except W3AError Unit)
    (requestResult : Except W3AError String) : Except W3AError Bool × ModuleState :=
  if st.web3auth.isNone then (.error .notInitialized, st)
  else
    match connectResult with
    | .error e => (.error e, st)
    | .ok _ =>
        match requestResult with
        | .error e => (.error e, st)
        | .ok entropy => (.ok true, { st with secret := some entropy })

/-- `getEntropy`: throws when `web3auth` is `null`, throws when
`secret` is falsy (`null` or the empty string), else returns it. -/
def getEntropy (st : ModuleState) : Except W3AError String :=
  if st.web3auth.isNone then .error .notInitialized
  else
    match st.secret with
    | none => .error .secretNotRecovered
    | some s => if s = "" then .error .secretNotRecovered else .ok s

/-- `getMnemonic(): entropyToMnemonic(getEntropy())`. -/
def getMnemonic (st : ModuleState) : Except W3AError (List Nat) :=
  (getEntropy st).bind fun s => entropyToMnemonic (hexToBytes s.data)

/-- `getSeed(): mnemonicToSeedSync(getMnemonic())`. -/
def getSeed (st : ModuleState) : Except W3AError Seed :=
  (getMnemonic st).map mnemonicToSeedSync

/-- `getMasterKey(): HDKey.fromMasterSeed(getSeed())`. -/
def getMasterKey (st : ModuleState) : Except W3AError HDK :=
  (getSeed st).map fromMasterSeed

/-- The template literal path of `getPrivateKey`. -/
def hdPath (accountIndex : Int) : String :=
  "m/44" ++ String.singleton apos ++ "/634" ++ String.singleton apos ++ "/"
    ++ intToDecString accountIndex ++ String.singleton apos ++ "/0/0"

/-- `getPrivateKey(accountIndex = 0)`: derive the child of the master
key along the interpolated path. -/
def getPrivateKey (st : ModuleState) (accountIndex : Int := 0) : Except W3AError HDK :=
  (getMasterKey st).bind fun masterKey => derive masterKey (hdPath accountIndex)

/-- `getPrivateKeyBytes(accountIndex = 0)`: the `privateKey` field of
the derived child key. -/
def getPrivateKeyBytes (st : ModuleState) (accountIndex : Int := 0) :
    Except W3AError KeyBytes :=
  (getPrivateKey st accountIndex).map KeyBytes.privateKey

/-- `getPublicKeyBytes(accountIndex = 0)`: the `publicKey` field of
the derived child key. -/
def getPublicKeyBytes (st : ModuleState) (accountIndex : Int := 0) :
    Except W3AError KeyBytes :=
  (getPrivateKey st accountIndex).map KeyBytes.publicKey

/-- `forgetSecret`: fails if `web3auth` is `null`; otherwise awaits
`logout()` and only then clears `secret`.  A rejected logout propagates
and leaves `secret` in place. -/
def forgetSecret (st : ModuleState) (logoutResult : Except W3AError Unit) :
    Except W3AError Unit × ModuleState :=
  if st.web3auth.isNone then (.error .notInitialized, st)
  else
    match logoutResult with
    | .error e => (.error e, st)
    | .ok _ => (.ok (), { st with secret := none })

/-! ## Lemmas: decimal digits -/

theorem isDigit_digitChar (d : Nat) (hd : d < 10) : (Char.ofNat (48 + d)).isDigit = true := by
  interval_cases d <;> decide

theorem toNat_digitChar (d : Nat) (hd : d < 10) : (Char.ofNat (48 + d)).toNat = 48 + d := by
  interval_cases d <;> decide

theorem natDigitsChars_ne_nil (n : Nat) : natDigitsChars n ≠ [] := by
  rw [natDigitsChars]
  split <;> simp

theorem mem_natDigitsChars_isDigit (n : Nat) : ∀ c ∈ natDigitsChars n, c.isDigit = true := by
  induction n using Nat.strong_induction_on with
  | _ n ih =>
    rw [natDigitsChars]
    split
    · next h =>
        intro c hc
        simp at hc
        subst hc
        exact isDigit_digitChar n h
    · next h =>
        intro c hc
        rcases List.mem_append.mp hc with hc | hc
        · exact ih (n / 10) (Nat.div_lt_self (by omega) (by omega)) c hc
        · simp at hc
          subst hc
          exact isDigit_digitChar (n % 10) (Nat.mod_lt _ (by omega))

theorem parseDigits_append_digit (l : List Char) (c : Char) :
    parseDigits (l ++ [c]) = 10 * parseDigits l + (c.toNat - 48) := by
  simp [parseDigits, List.foldl_append]

theorem parseDigits_natDigitsChars (n : Nat) : parseDigits (natDigitsChars n) = n := by
  induction n using Nat.strong_induction_on with
  | _ n ih =>
    rw [natDigitsChars]
    split
    · next h =>
        simp [parseDigits, toNat_digitChar n h]
    · next h =>
        rw [parseDigits_append_digit, ih (n / 10) (Nat.div_lt_self (by omega) (by omega)),
            toNat_digitChar (n % 10) (Nat.mod_lt _ (by omega))]
        omega

theorem not_mem_natDigitsChars_of_not_digit (n : Nat) (c : Char) (h : c.isDigit = false) :
    c ∉ natDigitsChars n := fun hc => by
  have := mem_natDigitsChars_isDigit n c hc
  rw [h] at this
  cases this

/-! ## Lemmas: path splitting and component parsing -/

theorem splitOnChar_sepfree (sep : Char) (l : List Char) (h : sep ∉ l) :
    splitOnChar sep l = [l] := by
  induction l with
  | nil => rfl
  | cons c cs ih =>
      simp only [List.mem_cons, not_or] at h
      rw [splitOnChar, if_neg (fun hh => h.1 hh.symm), ih h.2]

theorem splitOnChar_append (sep : Char) (xs ys : List Char) (h : sep ∉ xs) :
    splitOnChar sep (xs ++ sep :: ys) = xs :: splitOnChar sep ys := by
  induction xs with
  | nil => simp [splitOnChar]
  | cons c cs ih =>
      simp only [List.mem_cons, not_or] at h
      rw [List.cons_append, splitOnChar, if_neg (fun hh => h.1 hh.symm), ih h.2]

theorem splitHardened_append_apos (s : List Char) :
    splitHardened (s ++ [apos]) = (s, true) := by
  simp [splitHardened, List.reverse_append]

theorem parseComponent_digits_apos (n : Nat) :
    parseComponent (natDigitsChars n ++ [apos]) = some (n, true) := by
  unfold parseComponent
  rw [splitHardened_append_apos]
  have h2 : (natDigitsChars n).all Char.isDigit = true := by
    rw [List.all_eq_true]
    intro c hc
    exact mem_natDigitsChars_isDigit n c hc
  simp [natDigitsChars_ne_nil, h2, parseDigits_natDigitsChars]

theorem parseComponent_minus_apos (n : Nat) :
    parseComponent ((Char.ofNat 45 :: natDigitsChars n) ++ [apos]) = none := by
  unfold parseComponent
  rw [splitHardened_append_apos]
  simp

/-! ## Lemmas: the interpolated HD path and its parse -/

theorem intToDecString_ofNat (i : Nat) : (intToDecString (i : Int)).data = natDigitsChars i := by
  rw [intToDecString, if_neg (by omega)]
  simp

theorem intToDecString_of_neg (i : Int) (h : i < 0) :
    (intToDecString i).data = Char.ofNat 45 :: natDigitsChars i.natAbs := by
  rw [intToDecString, if_pos h]

theorem hdPath_data (i : Int) :
    (hdPath i).data =
      ['m'] ++ Char.ofNat 47 ::
        (['4', '4', apos] ++ Char.ofNat 47 ::
          (['6', '3', '4', apos] ++ Char.ofNat 47 ::
            (((intToDecString i).data ++ [apos]) ++ Char.ofNat 47 ::
              (['0'] ++ Char.ofNat 47 :: ['0'])))) := by
  show ("m/44" ++ String.singleton apos ++ "/634" ++ String.singleton apos ++ "/"
    ++ intToDecString i ++ String.singleton apos ++ "/0/0").data = _
  simp only [String.data_append]
  show ['m', '/', '4', '4'] ++ [apos] ++ ['/', '6', '3', '4'] ++ [apos] ++ ['/']
    ++ (intToDecString i).data ++ [apos] ++ ['/', '0', '/', '0'] = _
  simp [apos]

theorem slash_not_mem_component (i : Int) :
    Char.ofNat 47 ∉ (intToDecString i).data ++ [apos] := by
  intro hmem
  rcases List.mem_append.mp hmem with hc | hc
  · by_cases hi : i < 0
    · rw [intToDecString_of_neg i hi] at hc
      rcases List.mem_cons.mp hc with h45 | hdig
      · exact absurd h45 (by decide)
      · exact not_mem_natDigitsChars_of_not_digit _ _ (by decide) hdig
    · rw [intToDecString, if_neg hi] at hc
      exact not_mem_natDigitsChars_of_not_digit _ _ (by decide) hc
  · simp [apos] at hc

theorem splitOnChar_hdPath (i : Int) :
    splitOnChar (Char.ofNat 47) (hdPath i).data =
      [['m'], ['4', '4', apos], ['6', '3', '4', apos],
       (intToDecString i).data ++ [apos], ['0'], ['0']] := by
  rw [hdPath_data,
      splitOnChar_append _ _ _ (by decide),
      splitOnChar_append _ _ _ (by decide),
      splitOnChar_append _ _ _ (by decide),
      splitOnChar_append _ _ _ (slash_not_mem_component i),
      splitOnChar_append _ _ _ (by decide),
      splitOnChar_sepfree _ _ (by decide)]

theorem deriveComponents_cons (k : HDK) (c : List Char) (rest : List (List Char))
    (idx : Nat) (hardened : Bool) (h : parseComponent c = some (idx, hardened))
    (hlt : idx < hardenedOffset) :
    deriveComponents k (c :: rest) =
      deriveComponents (HDK.child k (if hardened then idx + hardenedOffset else idx)) rest := by
  simp only [deriveComponents, h]
  rw [if_neg (by omega)]

theorem deriveComponents_cons_large (k : HDK) (c : List Char) (rest : List (List Char))
    (idx : Nat) (hardened : Bool) (h : parseComponent c = some (idx, hardened))
    (hge : hardenedOffset ≤ idx) :
    deriveComponents k (c :: rest) = .error .invalidAccountIndex := by
  simp only [deriveComponents, h]
  rw [if_pos hge]

theorem deriveComponents_cons_none (k : HDK) (c : List Char) (rest : List (List Char))
    (h : parseComponent c = none) :
    deriveComponents k (c :: rest) = .error .invalidAccountIndex := by
  simp only [deriveComponents, h]

/-- A path whose split has head component `m` derives through the tail
components. -/
theorem derive_cons_m (k : HDK) (p : String) (rest : List (List Char))
    (h : splitOnChar (Char.ofNat 47) p.data = ['m'] :: rest) :
    derive k p = deriveComponents k rest := by
  unfold derive
  rw [h]
  show (if (['m'] : List Char) = [Char.ofNat 109] ∨ (['m'] : List Char) = [Char.ofNat 77] ∨
      (['m'] : List Char) = [Char.ofNat 109, apos] ∨ (['m'] : List Char) = [Char.ofNat 77, apos]
    then deriveComponents k rest else Except.error W3AError.invalidAccountIndex) =
    deriveComponents k rest
  rw [if_pos (by decide)]

/-- The parsed path walks exactly the five-segment chain
`44' / 634' / i' / 0 / 0` below the given key, for `i < 2^31`. -/
theorem derive_hdPath_ok (k : HDK) (i : Nat) (hi : i < 2 ^ 31) :
    derive k (hdPath (i : Int)) =
      .ok (HDK.child (HDK.child (HDK.child (HDK.child (HDK.child k (44 + 2 ^ 31))
        (634 + 2 ^ 31)) (i + 2 ^ 31)) 0) 0) := by
  have hoff : hardenedOffset = 2 ^ 31 := by rw [hardenedOffset]; norm_num
  rw [derive_cons_m _ _ _ (splitOnChar_hdPath _)]
  rw [deriveComponents_cons _ _ _ 44 true (by decide) (by rw [hoff]; norm_num)]
  rw [deriveComponents_cons _ _ _ 634 true (by decide) (by rw [hoff]; norm_num)]
  rw [intToDecString_ofNat,
      deriveComponents_cons _ _ _ i true (parseComponent_digits_apos i) (by omega)]
  rw [deriveComponents_cons _ _ _ 0 false (by decide) (by rw [hoff]; norm_num)]
  rw [deriveComponents_cons _ _ _ 0 false (by decide) (by rw [hoff]; norm_num)]
  simp [deriveComponents, hoff]

/-- Indices `≥ 2^31` are rejected by the parsed path. -/
theorem derive_hdPath_large (k : HDK) (i : Int) (hi : 2 ^ 31 ≤ i) :
    derive k (hdPath i) = .error .invalidAccountIndex := by
  have hoff : hardenedOffset = 2 ^ 31 := by rw [hardenedOffset]; norm_num
  have hofn : i = (i.toNat : Int) := by omega
  rw [derive_cons_m _ _ _ (splitOnChar_hdPath _)]
  rw [deriveComponents_cons _ _ _ 44 true (by decide) (by rw [hoff]; norm_num)]
  rw [deriveComponents_cons _ _ _ 634 true (by decide) (by rw [hoff]; norm_num)]
  rw [hofn, intToDecString_ofNat]
  refine deriveComponents_cons_large _ _ _ i.toNat true (parseComponent_digits_apos _) ?_
  rw [hoff]
  omega

/-- Negative indices fail the digit regex of the path parser. -/
theorem derive_hdPath_neg (k : HDK) (i : Int) (hi : i < 0) :
    derive k (hdPath i) = .error .invalidAccountIndex := by
  have hoff : hardenedOffset = 2 ^ 31 := by rw [hardenedOffset]; norm_num
  rw [derive_cons_m _ _ _ (splitOnChar_hdPath _)]
  rw [deriveComponents_cons _ _ _ 44 true (by decide) (by rw [hoff]; norm_num)]
  rw [deriveComponents_cons _ _ _ 634 true (by decide) (by rw [hoff]; norm_num)]
  rw [intToDecString_of_neg i hi]
  exact deriveComponents_cons_none _ _ _ (parseComponent_minus_apos i.natAbs)

/-! ## Lemmas: bip39 round trip support -/

instance instDecEqExcept {ε α : Type} [DecidableEq ε] [DecidableEq α] :
    DecidableEq (Except ε α) := fun
  | .ok a, .ok b =>
      if h : a = b then .isTrue (by rw [h]) else .isFalse (fun hh => by cases hh; exact h rfl)
  | .ok _, .error _ => .isFalse (fun hh => by cases hh)
  | .error _, .ok _ => .isFalse (fun hh => by cases hh)
  | .error e, .error f =>
      if h : e = f then .isTrue (by rw [h]) else .isFalse (fun hh => by cases hh; exact h rfl)

theorem length_bytesToBits (e : List Nat) : (bytesToBits e).length = 8 * e.length := by
  induction e with
  | nil => rfl
  | cons b bs ih =>
      show (natToBits 8 b ++ bytesToBits bs).length = _
      simp only [List.length_append, length_natToBits, List.length_cons, ih]
      omega

theorem length_flatten_map_natToBits (w : Nat) (ws : List Nat) :
    ((ws.map (natToBits w)).flatten).length = w * ws.length := by
  induction ws with
  | nil => simp
  | cons a as ih =>
      simp only [List.map_cons, List.flatten_cons, List.length_append, length_natToBits,
        List.length_cons, ih]
      ring

theorem length_deriveChecksumBits (ent : List Nat) (h : ent.length ≤ 32) :
    (deriveChecksumBits ent).length = ent.length * 8 / 32 := by
  rw [deriveChecksumBits, List.length_take, length_bytesToBits, length_sha256]
  omega

/-! ## The spec-side fresh-chain definition (for the refinement claim
about the byte extractors) -/

/-- Modelled from the spec: "they must invoke the full chain
(entropy→mnemonic→seed→master→child) fresh on each call — there is no
caching".  The whole derivation written in one place, recomputing every
intermediate artifact directly from the currently stored entropy. -/
def specFreshChildKey (st : ModuleState) (i : Int) : Except W3AError HDK :=
  match getEntropy st with
  | .error e => .error e
  | .ok entHex =>
      match entropyToMnemonic (hexToBytes entHex.data) with
      | .error e => .error e
      | .ok words => derive (fromMasterSeed (mnemonicToSeedSync words)) (hdPath i)

/-- C9: for every entropy whose length is 128, 160, 192, 224 or 256
bits, encoding it with bip39's `entropyToMnemonic` (the step used by
`getMnemonic`) and decoding the resulting mnemonic back with the
inverse `mnemonicToEntropy` yields exactly the original bytes. -/
theorem mnemonic_roundtrip (ent : List Nat)
    (hlen : ent.length = 16 ∨ ent.length = 20 ∨ ent.length = 24 ∨ ent.length = 28 ∨
      ent.length = 32)
    (hbytes : ∀ b ∈ ent, b < 256) :
    entropyToMnemonic ent = .ok (entropyToMnemonicIdx ent) ∧
    mnemonicToEntropy (entropyToMnemonicIdx ent) = .ok ent := by
  obtain ⟨k, hL, hk4, hk8⟩ : ∃ k, ent.length = 4 * k ∧ 4 ≤ k ∧ k ≤ 8 := by
    rcases hlen with h | h | h | h | h
    exacts [⟨4, by omega⟩, ⟨5, by omega⟩, ⟨6, by omega⟩, ⟨7, by omega⟩, ⟨8, by omega⟩]
  constructor
  · rw [entropyToMnemonic, if_neg (by omega)]
  · rw [entropyToMnemonicIdx]
    set B := bytesToBits ent ++ deriveChecksumBits ent with hB
    set W := (chunksOf 11 B).map bitsToNat with hWdef
    have hbb : (bytesToBits ent).length = 32 * k := by rw [length_bytesToBits]; omega
    have hcs : (deriveChecksumBits ent).length = k := by
      rw [length_deriveChecksumBits ent (by omega)]; omega
    have hBlen : B.length = 33 * k := by rw [hB, List.length_append, hbb, hcs]; omega
    have hchunk11 : ∀ c ∈ chunksOf 11 B, c.length = 11 :=
      length_mem_chunksOf 11 (by omega) B (by rw [hBlen]; exact ⟨3 * k, by ring⟩)
    have hmapBack : W.map (natToBits 11) = chunksOf 11 B := by
      rw [hWdef, List.map_map]
      have hcongr : ∀ c ∈ chunksOf 11 B, (natToBits 11 ∘ bitsToNat) c = id c := by
        intro c hc
        simp only [Function.comp_apply, id_eq]
        rw [← hchunk11 c hc]
        exact natToBits_bitsToNat c
      rw [List.map_congr_left hcongr, List.map_id]
    have hflat : (W.map (natToBits 11)).flatten = B := by rw [hmapBack, flatten_chunksOf]
    have hWlen : W.length = 3 * k := by
      have h11 : 11 * W.length = 33 * k := by
        rw [← length_flatten_map_natToBits 11 W, hflat, hBlen]
      omega
    have hall : W.all (fun w => decide (w < 2048)) = true := by
      rw [List.all_eq_true]
      intro w hw
      rw [hWdef] at hw
      rcases List.mem_map.mp hw with ⟨c, hc, rfl⟩
      have hlt := bitsToNat_lt c
      rw [hchunk11 c hc] at hlt
      simp only [decide_eq_true_eq]
      omega
    have hdix : B.length / 33 * 32 = (bytesToBits ent).length := by rw [hBlen, hbb]; omega
    have htake : B.take (B.length / 33 * 32) = bytesToBits ent := by
      rw [hdix, hB, List.take_left]
    have hdrop : B.drop (B.length / 33 * 32) = deriveChecksumBits ent := by
      rw [hdix, hB, List.drop_left]
    have hrebytes : (chunksOf 8 (bytesToBits ent)).map bitsToNat = ent := by
      show (chunksOf 8 ((ent.map (natToBits 8)).flatten)).map bitsToNat = ent
      rw [chunksOf_join_of_length 8 (by omega) _ ?hlen8, List.map_map]
      case hlen8 =>
        intro c hc
        rcases List.mem_map.mp hc with ⟨b, _, rfl⟩
        exact length_natToBits 8 b
      have hcongr : ∀ b ∈ ent, (bitsToNat ∘ natToBits 8) b = id b := by
        intro b hb
        simp only [Function.comp_apply, id_eq]
        exact bitsToNat_natToBits 8 b (by have := hbytes b hb; omega)
      rw [List.map_congr_left hcongr, List.map_id]
    rw [mnemonicToEntropy]
    rw [if_neg (by omega)]
    rw [if_neg (by simp [hall])]
    simp only [hflat, htake, hdrop, hrebytes]
    rw [if_neg (by omega)]
    rw [if_neg (by simp)]

/-- C9 witness: the round trip holds at the 16-byte all-zero entropy of
the standard bip39 test vectors. -/
theorem mnemonic_roundtrip_witness :
    entropyToMnemonic (List.replicate 16 0) = .ok (entropyToMnemonicIdx (List.replicate 16 0)) ∧
    mnemonicToEntropy (entropyToMnemonicIdx (List.replicate 16 0)) =
      .ok (List.replicate 16 0) :=
  mnemonic_roundtrip (List.replicate 16 0) (by simp)
    (by intro b hb; rw [List.eq_of_mem_replicate hb]; omega)

/-- C1: for every account index `i` (any valid 31-bit index),
`getPrivateKey(i)` returns the child extended key obtained by deriving
from the master key along the fixed HD path `m/44'/634'/i'/0/0` — coin
type 634 constant, the first three segments hardened (offset `2^31`),
the last two non-hardened — and the `accountIndex` parameter defaults
to `0` when omitted. -/
theorem getPrivateKey_fixed_path (st : ModuleState) (i : Nat) (hi : i < 2 ^ 31) :
    getPrivateKey st (i : Int) = (getMasterKey st).map (fun masterKey =>
      HDK.child (HDK.child (HDK.child (HDK.child (HDK.child masterKey (44 + 2 ^ 31))
        (634 + 2 ^ 31)) (i + 2 ^ 31)) 0) 0) ∧
    getPrivateKey st = getPrivateKey st 0 := by
  constructor
  · rw [getPrivateKey]
    cases hmk : getMasterKey st with
    | error e => rfl
    | ok masterKey => simp [Except.bind, Except.map, derive_hdPath_ok masterKey i hi]
  · rfl

/-- C1 witness: the path theorem applied at index 3 in a concrete
recovered state. -/
theorem getPrivateKey_fixed_path_witness :
    getPrivateKey ⟨some 0, some "00"⟩ ((3 : Nat) : Int) =
      (getMasterKey ⟨some 0, some "00"⟩).map (fun masterKey =>
        HDK.child (HDK.child (HDK.child (HDK.child (HDK.child masterKey (44 + 2 ^ 31))
          (634 + 2 ^ 31)) (3 + 2 ^ 31)) 0) 0) ∧
    getPrivateKey ⟨some 0, some "00"⟩ = getPrivateKey ⟨some 0, some "00"⟩ 0 :=
  getPrivateKey_fixed_path ⟨some 0, some "00"⟩ 3 (by norm_num)

/-- C2: every accessor and derivation operation called before
initialization fails with `NotInitializedError`, and called after
initialization but before a successful recovery (no stored secret)
fails with `SecretNotRecoveredError`; each returns an `Except.error`,
never a null-like success value, in those states. -/
theorem accessors_precondition_errors (st : ModuleState) (i : Int) :
    (st.web3auth = none →
      getEntropy st = .error .notInitialized ∧
      getMnemonic st = .error .notInitialized ∧
      getSeed st = .error .notInitialized ∧
      getMasterKey st = .error .notInitialized ∧
      getPrivateKey st i = .error .notInitialized ∧
      getPrivateKeyBytes st i = .error .notInitialized ∧
      getPublicKeyBytes st i = .error .notInitialized) ∧
    (st.web3auth ≠ none → st.secret = none →
      getEntropy st = .error .secretNotRecovered ∧
      getMnemonic st = .error .secretNotRecovered ∧
      getSeed st = .error .secretNotRecovered ∧
      getMasterKey st = .error .secretNotRecovered ∧
      getPrivateKey st i = .error .secretNotRecovered ∧
      getPrivateKeyBytes st i = .error .secretNotRecovered ∧
      getPublicKeyBytes st i = .error .secretNotRecovered) := by
  obtain ⟨w, sec⟩ := st
  constructor
  · rintro rfl
    simp [getEntropy, getMnemonic, getSeed, getMasterKey, getPrivateKey,
      getPrivateKeyBytes, getPublicKeyBytes, Except.bind, Except.map]
  · rintro hw rfl
    cases w with
    | none => exact absurd rfl hw
    | some c =>
        simp [getEntropy, getMnemonic, getSeed, getMasterKey, getPrivateKey,
          getPrivateKeyBytes, getPublicKeyBytes, Except.bind, Except.map]

/-- C2 witness: the precondition errors at the concrete uninitialized
and initialized-but-unrecovered states. -/
theorem accessors_precondition_errors_witness :
    getEntropy ⟨none, none⟩ = .error .notInitialized ∧
    getPublicKeyBytes ⟨none, none⟩ 1 = .error .notInitialized ∧
    getEntropy ⟨some 0, none⟩ = .error .secretNotRecovered ∧
    getPrivateKeyBytes ⟨some 0, none⟩ 1 = .error .secretNotRecovered :=
  ⟨((accessors_precondition_errors ⟨none, none⟩ 1).1 rfl).1,
   ((accessors_precondition_errors ⟨none, none⟩ 1).1 rfl).2.2.2.2.2.2,
   (((accessors_precondition_errors ⟨some 0, none⟩ 1).2 (by simp)) rfl).1,
   (((accessors_precondition_errors ⟨some 0, none⟩ 1).2 (by simp)) rfl).2.2.2.2.2.1⟩

/-- C3: after a successful `forgetSecret` the stored secret is cleared;
`getEntropy` and every downstream derivation then fails with
`SecretNotRecoveredError` (no stale data is returned), and only a new
successful `recoverSecret` re-establishes a stored secret. -/
theorem forgetSecret_fail_closed (st : ModuleState) (c : Nat) (h : st.web3auth = some c)
    (i : Int) (ent : String) :
    (forgetSecret st (.ok ())).1 = .ok () ∧
    (forgetSecret st (.ok ())).2.secret = none ∧
    getEntropy (forgetSecret st (.ok ())).2 = .error .secretNotRecovered ∧
    getMnemonic (forgetSecret st (.ok ())).2 = .error .secretNotRecovered ∧
    getSeed (forgetSecret st (.ok ())).2 = .error .secretNotRecovered ∧
    getMasterKey (forgetSecret st (.ok ())).2 = .error .secretNotRecovered ∧
    getPrivateKey (forgetSecret st (.ok ())).2 i = .error .secretNotRecovered ∧
    getPrivateKeyBytes (forgetSecret st (.ok ())).2 i = .error .secretNotRecovered ∧
    getPublicKeyBytes (forgetSecret st (.ok ())).2 i = .error .secretNotRecovered ∧
    (recoverSecret (forgetSecret st (.ok ())).2 (.ok ()) (.ok ent)).1 = .ok true ∧
    (recoverSecret (forgetSecret st (.ok ())).2 (.ok ()) (.ok ent)).2.secret = some ent := by
  obtain ⟨w, sec⟩ := st
  simp only [ModuleState.mk.injEq] at h
  subst h
  simp [forgetSecret, getEntropy, getMnemonic, getSeed, getMasterKey, getPrivateKey,
    getPrivateKeyBytes, getPublicKeyBytes, recoverSecret, Except.bind, Except.map]

/-- C3 witness: forgetting from a concrete recovered state clears the
secret and makes `getEntropy` fail. -/
theorem forgetSecret_fail_closed_witness :
    (forgetSecret ⟨some 0, some "00ff"⟩ (.ok ())).2.secret = none ∧
    getEntropy (forgetSecret ⟨some 0, some "00ff"⟩ (.ok ())).2 = .error .secretNotRecovered ∧
    (recoverSecret (forgetSecret ⟨some 0, some "00ff"⟩ (.ok ())).2 (.ok ())
      (.ok "aa")).2.secret = some "aa" :=
  ⟨(forgetSecret_fail_closed ⟨some 0, some "00ff"⟩ 0 rfl 0 "aa").2.1,
   (forgetSecret_fail_closed ⟨some 0, some "00ff"⟩ 0 rfl 0 "aa").2.2.1,
   (forgetSecret_fail_closed ⟨some 0, some "00ff"⟩ 0 rfl 0 "aa").2.2.2.2.2.2.2.2.2.2⟩

/-- C4: `getPrivateKeyBytes(i)` and `getPublicKeyBytes(i)` equal the
`privateKey` / `publicKey` fields of the child key recomputed by the
full fresh chain entropy → mnemonic → seed → master → child from the
currently stored entropy (`specFreshChildKey`, written from the spec's
words); no intermediate artifact is cached — the module state carries
only the client handle and the secret, so every call recomputes the
whole chain from `getEntropy`. -/
theorem bytes_fresh_chain (st : ModuleState) (i : Int) :
    getPrivateKeyBytes st i = (specFreshChildKey st i).map KeyBytes.privateKey ∧
    getPublicKeyBytes st i = (specFreshChildKey st i).map KeyBytes.publicKey := by
  have hkey : getPrivateKey st i = specFreshChildKey st i := by
    rw [getPrivateKey, getMasterKey, getSeed, getMnemonic, specFreshChildKey]
    cases he : getEntropy st with
    | error e => rfl
    | ok s =>
        cases hm : entropyToMnemonic (hexToBytes s.data) with
        | error e => simp [hm, Except.bind, Except.map]
        | ok words => simp [hm, Except.bind, Except.map]
  constructor
  · rw [getPrivateKeyBytes, hkey]
  · rw [getPublicKeyBytes, hkey]

/-- C5: with a recovered master key, every account index `≥ 2^31` and
every negative index makes `getPrivateKey` and the byte extractors fail
with `InvalidAccountIndexError` (the index is validated against the
31-bit hardened-derivation bound during path parsing, before any child
key is produced), while index 0 — the default — succeeds. -/
theorem accountIndex_validation (st : ModuleState) (masterKey : HDK)
    (h : getMasterKey st = .ok masterKey) :
    (∀ i : Int, 2 ^ 31 ≤ i →
      getPrivateKey st i = .error .invalidAccountIndex ∧
      getPrivateKeyBytes st i = .error .invalidAccountIndex ∧
      getPublicKeyBytes st i = .error .invalidAccountIndex) ∧
    (∀ i : Int, i < 0 →
      getPrivateKey st i = .error .invalidAccountIndex ∧
      getPrivateKeyBytes st i = .error .invalidAccountIndex ∧
      getPublicKeyBytes st i = .error .invalidAccountIndex) ∧
    getPrivateKey st 0 = .ok (HDK.child (HDK.child (HDK.child (HDK.child
      (HDK.child masterKey (44 + 2 ^ 31)) (634 + 2 ^ 31)) (0 + 2 ^ 31)) 0) 0) := by
  refine ⟨?_, ?_, ?_⟩
  · intro i hi
    have hpk : getPrivateKey st i = .error .invalidAccountIndex := by
      rw [getPrivateKey, h]
      simp [Except.bind, derive_hdPath_large masterKey i hi]
    exact ⟨hpk, by rw [getPrivateKeyBytes, hpk]; rfl, by rw [getPublicKeyBytes, hpk]; rfl⟩
  · intro i hi
    have hpk : getPrivateKey st i = .error .invalidAccountIndex := by
      rw [getPrivateKey, h]
      simp [Except.bind, derive_hdPath_neg masterKey i hi]
    exact ⟨hpk, by rw [getPrivateKeyBytes, hpk]; rfl, by rw [getPublicKeyBytes, hpk]; rfl⟩
  · rw [getPrivateKey, h]
    have hd := derive_hdPath_ok masterKey 0 (by norm_num)
    simp only [Nat.cast_zero] at hd
    simp [Except.bind, hd]

set_option maxRecDepth 40000 in
/-- C5 witness: at a concrete recovered state (16-byte zero entropy),
index `2^31` and index `-1` fail with the invalid-index error and index
0 succeeds. -/
theorem accountIndex_validation_witness :
    getPrivateKey ⟨some 0, some "00000000000000000000000000000000"⟩ (2 ^ 31) =
      .error .invalidAccountIndex ∧
    getPrivateKey ⟨some 0, some "00000000000000000000000000000000"⟩ (-1) =
      .error .invalidAccountIndex ∧
    getPrivateKey ⟨some 0, some "00000000000000000000000000000000"⟩ 0 =
      .ok (HDK.child (HDK.child (HDK.child (HDK.child (HDK.child
        (HDK.fromSeed (Seed.ofMnemonic [0, 0, 0, 0, 0, 0, 0, 0, 0, 0, 0, 3]))
        (44 + 2 ^ 31)) (634 + 2 ^ 31)) (0 + 2 ^ 31)) 0) 0) := by
  have h := accountIndex_validation ⟨some 0, some "00000000000000000000000000000000"⟩
    (HDK.fromSeed (Seed.ofMnemonic [0, 0, 0, 0, 0, 0, 0, 0, 0, 0, 0, 3])) (by decide)
  exact ⟨(h.1 (2 ^ 31) le_rfl).1, (h.2.1 (-1) (by norm_num)).1, h.2.2⟩

/-- C6: `recoverSecret` called before initialization fails with
`NotInitializedError` whatever the provider would have answered (the
provider is not consulted: the result is independent of both oracle
outcomes); called after initialization with a successful provider flow
it stores the returned entropy as the current secret and returns
`true`. -/
theorem recoverSecret_contract (st : ModuleState) (connectResult : Except W3AError Unit)
    (requestResult : Except W3AError String) (ent : String) :
    (st.web3auth = none →
      recoverSecret st connectResult requestResult = (.error .notInitialized, st)) ∧
    (st.web3auth ≠ none →
      recoverSecret st (.ok ()) (.ok ent) = (.ok true, { st with secret := some ent })) := by
  obtain ⟨w, sec⟩ := st
  constructor
  · rintro rfl
    simp [recoverSecret]
  · intro hw
    cases w with
    | none => exact absurd rfl hw
    | some c => simp [recoverSecret]

/-- C6 witness: the uninitialized failure (with a provider oracle that
would have failed anyway) and a concrete successful recovery. -/
theorem recoverSecret_contract_witness :
    recoverSecret ⟨none, none⟩ (.error (.providerFailure 7)) (.ok "ff") =
      (.error .notInitialized, ⟨none, none⟩) ∧
    recoverSecret ⟨some 1, none⟩ (.ok ()) (.ok "ff") = (.ok true, ⟨some 1, some "ff"⟩) :=
  ⟨(recoverSecret_contract ⟨none, none⟩ (.error (.providerFailure 7)) (.ok "ff") "ff").1 rfl,
   (recoverSecret_contract ⟨some 1, none⟩ (.ok ()) (.ok "ff") "ff").2 (by simp)⟩

/-- C7: if `recoverSecret` fails partway — the provider's `connect`
rejects, or `connect` succeeds and the entropy `request` rejects — the
error propagates to the caller and the module state is exactly as
before the call: the previously stored secret (or its absence) is
unchanged, with no partial state persisted. -/
theorem recoverSecret_failure_atomic (st : ModuleState) (e : W3AError)
    (requestResult : Except W3AError String) (h : st.web3auth ≠ none) :
    recoverSecret st (.error e) requestResult = (.error e, st) ∧
    recoverSecret st (.ok ()) (.error e) = (.error e, st) := by
  obtain ⟨w, sec⟩ := st
  cases w with
  | none => exact absurd rfl h
  | some c => exact ⟨by simp [recoverSecret], by simp [recoverSecret]⟩

/-- C7 witness: failed connect and failed request at a concrete
initialized state with a previously stored secret. -/
theorem recoverSecret_failure_atomic_witness :
    recoverSecret ⟨some 0, some "aa"⟩ (.error (.providerFailure 3)) (.ok "bb") =
      (.error (.providerFailure 3), ⟨some 0, some "aa"⟩) ∧
    recoverSecret ⟨some 0, some "aa"⟩ (.ok ()) (.error (.providerFailure 3)) =
      (.error (.providerFailure 3), ⟨some 0, some "aa"⟩) :=
  recoverSecret_failure_atomic ⟨some 0, some "aa"⟩ (.providerFailure 3) (.ok "bb") (by simp)

/-- C8: if the provider's `logout` rejects during `forgetSecret` called
from an initialized state, the error propagates to the caller and the
stored secret is NOT cleared: the whole state, in particular the secret
field, is unchanged on that error path. -/
theorem forgetSecret_logout_failure (st : ModuleState) (e : W3AError)
    (h : st.web3auth ≠ none) :
    forgetSecret st (.error e) = (.error e, st) ∧
    (forgetSecret st (.error e)).2.secret = st.secret := by
  obtain ⟨w, sec⟩ := st
  cases w with
  | none => exact absurd rfl h
  | some c => exact ⟨by simp [forgetSecret], by simp [forgetSecret]⟩

/-- C8 witness: a failing logout at a concrete recovered state leaves
the secret in place. -/
theorem forgetSecret_logout_failure_witness :
    forgetSecret ⟨some 0, some "aa"⟩ (.error (.providerFailure 9)) =
      (.error (.providerFailure 9), ⟨some 0, some "aa"⟩) ∧
    (forgetSecret ⟨some 0, some "aa"⟩ (.error (.providerFailure 9))).2.secret = some "aa" :=
  forgetSecret_logout_failure ⟨some 0, some "aa"⟩ (.providerFailure 9) (by simp)

/-- C10: for the falsy provider result `""` (the empty string),
`recoverSecret` completes successfully and returns `true`, yet every
subsequent accessor and derivation fails with `SecretNotRecoveredError`:
the truthiness test `!secret` in `getEntropy` cannot distinguish an
empty recovered secret from no recovery, so the success indicator and
later retrievability disagree at the public interface. -/
theorem falsy_secret_disagreement :
    recoverSecret ⟨some 0, none⟩ (.ok ()) (.ok "") = (.ok true, ⟨some 0, some ""⟩) ∧
    getEntropy ⟨some 0, some ""⟩ = .error .secretNotRecovered ∧
    getMnemonic ⟨some 0, some ""⟩ = .error .secretNotRecovered ∧
    getSeed ⟨some 0, some ""⟩ = .error .secretNotRecovered ∧
    getMasterKey ⟨some 0, some ""⟩ = .error .secretNotRecovered ∧
    getPrivateKey ⟨some 0, some ""⟩ 0 = .error .secretNotRecovered ∧
    getPrivateKeyBytes ⟨some 0, some ""⟩ 0 = .error .secretNotRecovered ∧
    getPublicKeyBytes ⟨some 0, some ""⟩ 0 = .error .secretNotRecovered :=
  ⟨rfl, rfl, rfl, rfl, rfl, rfl, rfl, rfl⟩

end Web3Auth
